import Mathlib

/-!
Verification development for the asciinema-player core: a shallow embedding
of the frame preparer (batching and idle-time compression), the recorded
session driver seek algorithm, the controller loop policy, the websocket
reconnect backoff, the time-shift buffer delay arithmetic, the dirty-line
drain, and the cursor query, with theorems checking the documented
properties.

Timestamps are modelled as rationals (exact arithmetic standing in for the
float arithmetic of the source, which stays within small decimal fractions).
An unset idle time limit (Infinity in the source) is modelled as none.
Feeding bytes to the terminal model is modelled as appending the payload to
a list of fed strings, since the terminal emulator itself is an external
collaborator of the program.
-/

namespace Player

/-- Frame: a pair of a relative timestamp (seconds) and an output payload. -/
abbrev Frame := ℚ × String

/-- Upper gap bound for batching, one rendering tick: 1/60 second. -/
def maxFrameTime : ℚ := 1 / 60

/-- Step of the batching transducer of batchFrames: the accumulator holds the
frames emitted so far and the pending batch anchor frame (prevFrame in the
source). A frame closer than maxFrameTime to the anchor is appended to the
anchor payload, otherwise the anchor is emitted and the frame becomes the
new anchor. -/
def batchStep (acc : List Frame × Option Frame) (frame : Frame) :
    List Frame × Option Frame :=
  match acc with
  | (out, none) => (out, some frame)
  | (out, some prevFrame) =>
    if frame.1 - prevFrame.1 < maxFrameTime then
      (out, some (prevFrame.1, prevFrame.2 ++ frame.2))
    else
      (out ++ [prevFrame], some frame)

/-- Flush of the batching transducer: emit the pending anchor, if any. -/
def batchFlush (acc : List Frame × Option Frame) : List Frame :=
  match acc with
  | (out, none) => out
  | (out, some prevFrame) => out ++ [prevFrame]

/-- batchFrames: collapse runs of output frames close in time into single
frames (source function batchFrames, a step/flush transducer over a lazy
stream, here run over a list). -/
def batchFrames (frames : List Frame) : List Frame :=
  batchFlush (frames.foldl batchStep ([], none))

/-- State threaded by the idle-compression pass of prepareFrames. -/
structure PrepState where
  prevT : ℚ
  shift : ℚ
  effectiveStartAt : ℚ
  out : List Frame
  deriving DecidableEq, Repr

/-- One step of the idle-compression map in prepareFrames: compute the delay
since the previous timestamp; when it exceeds the idle time limit, grow the
accumulated shift by the excess (and pull effectiveStartAt back by the same
excess when the frame lies before startAt); output the frame shifted left by
the accumulated shift. An unset limit (Infinity) never triggers a shift. -/
def prepStep (idleTimeLimit : Option ℚ) (startAt : ℚ) (st : PrepState)
    (e : Frame) : PrepState :=
  match idleTimeLimit with
  | none =>
    { st with prevT := e.1, out := st.out ++ [(e.1 - st.shift, e.2)] }
  | some limit =>
    let delay := e.1 - st.prevT
    let delta := delay - limit
    if 0 < delta then
      { prevT := e.1
        shift := st.shift + delta
        effectiveStartAt :=
          if e.1 < startAt then st.effectiveStartAt - delta
          else st.effectiveStartAt
        out := st.out ++ [(e.1 - (st.shift + delta), e.2)] }
    else
      { st with prevT := e.1, out := st.out ++ [(e.1 - st.shift, e.2)] }

/-- prepareFrames: batch the raw frames, then run the idle-compression pass,
returning the prepared frames and the adjusted effective start offset. -/
def prepareFrames (frames : List Frame) (idleTimeLimit : Option ℚ)
    (startAt : ℚ) : List Frame × ℚ :=
  let st := (batchFrames frames).foldl (prepStep idleTimeLimit startAt)
    ⟨0, 0, startAt, []⟩
  (st.out, st.effectiveStartAt)

/-- Seek target of the recorded-session driver: an absolute time in seconds,
one of the relative jump tokens, or a percentage of the duration. -/
inductive SeekWhere where
  | time (t : ℚ)
  | rewind
  | fastForward
  | rewindBig
  | fastForwardBig
  | percent (p : ℚ)
  deriving DecidableEq, Repr

/-- Resolution of a string seek target to absolute seconds, mirroring the
string branch of the source seek: current time is pauseElapsedTime (ms,
defaulting to 0) over 1000, the small jumps are 5 seconds and the big jumps
a tenth of the duration, and a percent token scales the duration. -/
def resolveWhere (duration : ℚ) (pauseElapsedTime : Option ℚ) :
    SeekWhere → ℚ
  | .time t => t
  | .rewind => pauseElapsedTime.getD 0 / 1000 - 5
  | .fastForward => pauseElapsedTime.getD 0 / 1000 + 5
  | .rewindBig => pauseElapsedTime.getD 0 / 1000 - 0.1 * duration
  | .fastForwardBig => pauseElapsedTime.getD 0 / 1000 + 0.1 * duration
  | .percent p => p / 100 * duration

/-- The full-reset escape sequence fed to the terminal model on a backward
seek. -/
def resetSeq : String := "\x1bc"

/-- Mutable state of the recorded-session driver relevant to seek: the frame
cursor, the virtual time (ms) of the last fed frame, the paused elapsed time
(ms, unset before the first pause or seek), and the list of payloads fed to
the terminal model so far. -/
structure SeekState where
  nextFrameIndex : ℕ
  elapsedVirtualTime : ℚ
  pauseElapsedTime : Option ℚ
  fed : List String
  deriving DecidableEq, Repr

/-- The frame-feeding loop of seek: while the frame under the cursor exists
and its timestamp (ms) is below the target, feed its payload, record its
time as the elapsed virtual time and advance the cursor. -/
def advanceFrom (targetTime : ℚ) :
    List Frame → ℕ → ℚ → List String → ℕ × ℚ × List String
  | [], i, evt, fed => (i, evt, fed)
  | f :: rest, i, evt, fed =>
    if f.1 * 1000 < targetTime then
      advanceFrom targetTime rest (i + 1) (f.1 * 1000) (fed ++ [f.2])
    else
      (i, evt, fed)

/-- The seek algorithm of the recorded-session driver, modelled in the
paused state (the playing case only wraps the same body in pause and resume,
which feed nothing): resolve the target, clamp it to the duration, reset the
terminal model and rewind the cursor when the target lies before the
currently reached virtual time, then feed every due frame and record the
target as the paused elapsed time. -/
def seek (frames : List Frame) (duration : ℚ) (w : SeekWhere)
    (s : SeekState) : SeekState :=
  let whereT := resolveWhere duration s.pauseElapsedTime w
  let targetTime := min (max whereT 0) duration * 1000
  let s1 :=
    if targetTime < s.elapsedVirtualTime then
      { s with fed := s.fed ++ [resetSeq], nextFrameIndex := 0,
               elapsedVirtualTime := 0 }
    else s
  let r := advanceFrom targetTime (frames.drop s1.nextFrameIndex)
    s1.nextFrameIndex s1.elapsedVirtualTime s1.fed
  { nextFrameIndex := r.1, elapsedVirtualTime := r.2.1,
    pauseElapsedTime := some targetTime, fed := r.2.2 }

/-- Controller states of the session core. -/
inductive PState where
  | initial
  | playing
  | paused
  | finished
  deriving DecidableEq, Repr

/-- The loop option: a boolean flag (true is infinite looping) or a numeric
repeat count. -/
inductive LoopSetting where
  | flag (b : Bool)
  | count (n : ℕ)
  deriving DecidableEq, Repr

/-- Controller state observed by the loop policy: the internal play count,
the playback state, the seek and resume calls forwarded to the driver, and
the dispatched event names. -/
structure CoreState where
  playCount : ℕ
  st : PState
  driverSeeks : List ℚ
  driverResumes : ℕ
  dispatched : List String
  deriving DecidableEq, Repr

/-- doSeek(0) of the core for a seekable driver: set state to paused unless
already playing, and forward seek(0) to the driver. -/
def doSeekZero (s : CoreState) : CoreState :=
  { s with st := if s.st = .playing then .playing else .paused,
           driverSeeks := s.driverSeeks ++ [0] }

/-- resume of the core for a pausable driver: set state to playing, forward
pauseOrResume to the driver, and dispatch a play event. -/
def resume (s : CoreState) : CoreState :=
  { s with st := .playing, driverResumes := s.driverResumes + 1,
           dispatched := s.dispatched ++ ["play"] }

/-- restart of the core: doSeek(0), then resume, then dispatch play (the
source dispatches play a second time after resume). -/
def restart (s : CoreState) : CoreState :=
  let s2 := resume (doSeekZero s)
  { s2 with dispatched := s2.dispatched ++ ["play"] }

/-- The restart condition of onFinish: loop is the literal true, or a number
above the incremented play count. -/
def loopCondition (loop : LoopSetting) (playCount : ℕ) : Bool :=
  match loop with
  | .flag b => b
  | .count n => playCount < n

/-- onFinish callback of the core: increment the play count, then either
restart (loop policy satisfied) or enter the finished state and dispatch an
ended event. -/
def onFinish (loop : LoopSetting) (s : CoreState) : CoreState :=
  let s1 := { s with playCount := s.playCount + 1 }
  if loopCondition loop s1.playCount then restart s1
  else { s1 with st := .finished, dispatched := s1.dispatched ++ ["ended"] }

/-- State of the websocket driver relevant to reconnection: the next
reconnect delay (ms), the stop flag, the waiting flag, the delays of the
reconnects scheduled so far, and the number of onFinish invocations. -/
structure WsState where
  reconnectDelay : ℕ
  stopped : Bool
  waiting : Bool
  scheduledReconnects : List ℕ
  finishCount : ℕ
  deriving DecidableEq, Repr

/-- Initial websocket driver state: reconnect delay 250 ms, not stopped. -/
def wsInit : WsState := ⟨250, false, false, [], 0⟩

/-- onopen handler: clear the waiting state and reset the reconnect delay to
250 ms. -/
def wsOnOpen (s : WsState) : WsState :=
  { s with waiting := false, reconnectDelay := 250 }

/-- onclose handler: after a stop or a clean close (code 1000 or 1005)
invoke onFinish; otherwise set waiting, schedule a reconnect after the
current delay, and double the delay capped at 5000 ms. -/
def wsOnClose (code : ℕ) (s : WsState) : WsState :=
  if s.stopped = true ∨ code = 1000 ∨ code = 1005 then
    { s with finishCount := s.finishCount + 1 }
  else
    { s with waiting := true,
             scheduledReconnects := s.scheduledReconnects ++ [s.reconnectDelay],
             reconnectDelay := min (s.reconnectDelay * 2) 5000 }

/-- Explicit stop of the websocket driver: set the stop flag (the socket
close that follows then reaches wsOnClose with the flag set). -/
def wsStop (s : WsState) : WsState := { s with stopped := true }

/-- A live stream event: stream-relative time (seconds), kind, payload. -/
structure StreamEvent where
  time : ℚ
  kind : String
  data : String
  deriving DecidableEq, Repr

/-- Sleep duration (ms) computed by the buffer replay loop before feeding an
event: the elapsed stream time (event time plus bufferTime, in ms) minus the
elapsed wall time when positive, otherwise no sleep. -/
def bufferSleep (bufferTime : ℚ) (eventTime : ℚ) (elapsedWallTime : ℚ) : ℚ :=
  let elapsedStreamTime := (eventTime + bufferTime) * 1000
  if elapsedStreamTime > elapsedWallTime then elapsedStreamTime - elapsedWallTime
  else 0

/-- The two buffer implementations getBuffer may return. -/
inductive BufferKind where
  | queued
  | direct
  deriving DecidableEq, Repr

/-- getBuffer: the queued, time-shifting buffer when bufferTime is positive,
the direct pass-through buffer otherwise. -/
def getBuffer (bufferTime : ℚ) : BufferKind :=
  if bufferTime > 0 then .queued else .direct

/-- pushEvent of the pass-through buffer: feed the payload immediately for
an output event, drop any other event. -/
def nullBufferPushEvent (fed : List String) (e : StreamEvent) : List String :=
  if e.kind = "o" then fed ++ [e.data] else fed

/-- pushText of the pass-through buffer: feed the text immediately. -/
def nullBufferPushText (fed : List String) (text : String) : List String :=
  fed ++ [text]

/-- The id and segments record returned per changed line. -/
structure LineRecord (α : Type) where
  id : ℕ
  segments : α
  deriving DecidableEq, Repr

/-- Controller state observed by getChangedLines: the accumulated dirty row
indices (in insertion order) and the line reader of the terminal model. -/
structure LineState (α : Type) where
  changedLines : List ℕ
  getLine : ℕ → α

/-- getChangedLines: when the dirty set is nonempty, build the mapping from
each accumulated row index to its id and segments record and clear the set;
otherwise return nothing and leave the state unchanged. -/
def getChangedLines {α : Type} (s : LineState α) :
    Option (List (ℕ × LineRecord α)) × LineState α :=
  if 0 < s.changedLines.length then
    (some (s.changedLines.map (fun i => (i, ⟨i, s.getLine i⟩))),
     { s with changedLines := [] })
  else
    (none, s)

/-- The active terminal buffer fields read by get_cursor. -/
structure TermBuf where
  cursorX : ℤ
  cursorY : ℤ
  baseY : ℤ
  deriving DecidableEq, Repr

/-- get_cursor capability of the terminal model wrapper: always returns the
pair of cursorX and cursorY minus baseY (the option models the nullable
value space the caller guards against; the source builds the array
unconditionally). -/
def get_cursor (b : TermBuf) : Option (ℤ × ℤ) :=
  some (b.cursorX, b.cursorY - b.baseY)

/-- Cursor cache values of the core: unset, hidden (the false fallback), or
a column and row pair. -/
inductive CursorCache where
  | undef
  | hidden
  | shown (col row : ℤ)
  deriving DecidableEq, Repr

/-- Core state observed by getCursor: the cursor cache and the terminal
model, when created. -/
structure CursorState where
  cursor : CursorCache
  vt : Option TermBuf
  deriving DecidableEq, Repr

/-- getCursor of the core: when the cache is unset and a terminal model
exists, query get_cursor, falling back to the hidden value when it returns
nothing, and cache the result; otherwise return the cache. -/
def getCursor (s : CursorState) : CursorCache × CursorState :=
  match s.cursor, s.vt with
  | .undef, some b =>
    let c := match get_cursor b with
      | some (x, y) => CursorCache.shown x y
      | none => CursorCache.hidden
    (c, { s with cursor := c })
  | c, _ => (c, s)

/-! ## Helper lemmas -/

/-- Appending one frame whose timestamp dominates the last keeps a frame
list sorted. -/
theorem chain_concat {l : List Frame} {p : Frame}
    (h : List.Chain' (fun a b => a.1 ≤ b.1) l)
    (hl : ∀ x ∈ l.getLast?, x.1 ≤ p.1) :
    List.Chain' (fun a b => a.1 ≤ b.1) (l ++ [p]) := by
  rw [List.chain'_append]
  refine ⟨h, List.chain'_singleton p, fun x hx y hy => ?_⟩
  simp only [List.head?_cons, Option.mem_some_iff] at hy
  subst hy
  exact hl x hx

/-- Invariant of the batching fold: from a sorted input, a sorted output, an
anchor dominating the emitted frames and dominated by the remaining input
(and an empty output while no anchor exists), the flushed result is
sorted. -/
theorem batch_foldl_mono :
    ∀ (l out : List Frame) (prevF : Option Frame),
      List.Chain' (fun a b => a.1 ≤ b.1) l →
      List.Chain' (fun a b => a.1 ≤ b.1) out →
      (∀ p, prevF = some p →
        (∀ x ∈ out.getLast?, x.1 ≤ p.1) ∧ (∀ h ∈ l.head?, p.1 ≤ h.1)) →
      (prevF = none → out = []) →
      List.Chain' (fun a b => a.1 ≤ b.1)
        (batchFlush (l.foldl batchStep (out, prevF)))
  | [], out, none, _, hout, _, _ => by
      simpa [batchFlush] using hout
  | [], out, some p, _, hout, hp, _ => by
      simp only [List.foldl_nil, batchFlush]
      exact chain_concat hout (hp p rfl).1
  | e :: rest, out, none, hl, _, _, hnone => by
      have hout0 : out = [] := hnone rfl
      subst hout0
      simp only [List.foldl_cons, batchStep]
      refine batch_foldl_mono rest [] (some e) (List.chain'_cons'.mp hl).2
        List.chain'_nil (fun q hq => ?_) (fun h => by cases h)
      cases hq
      exact ⟨fun x hx => by simp at hx, (List.chain'_cons'.mp hl).1⟩
  | e :: rest, out, some p, hl, hout, hp, _ => by
      have hpe : p.1 ≤ e.1 := (hp p rfl).2 e (by simp)
      have hrest : ∀ h ∈ rest.head?, e.1 ≤ h.1 := (List.chain'_cons'.mp hl).1
      simp only [List.foldl_cons, batchStep]
      split
      · refine batch_foldl_mono rest out (some (p.1, p.2 ++ e.2))
          (List.chain'_cons'.mp hl).2 hout (fun q hq => ?_) (fun h => by cases h)
        cases hq
        exact ⟨(hp p rfl).1, fun h hh => le_trans hpe (hrest h hh)⟩
      · refine batch_foldl_mono rest (out ++ [p]) (some e)
          (List.chain'_cons'.mp hl).2 (chain_concat hout (hp p rfl).1)
          (fun q hq => ?_) (fun h => by cases h)
        cases hq
        refine ⟨fun x hx => ?_, hrest⟩
        rw [List.getLast?_concat] at hx
        simp only [Option.mem_some_iff] at hx
        subst hx
        exact hpe

/-- batchFrames preserves sortedness of the timestamps. -/
theorem batchFrames_mono {l : List Frame}
    (hl : List.Chain' (fun a b => a.1 ≤ b.1) l) :
    List.Chain' (fun a b => a.1 ≤ b.1) (batchFrames l) :=
  batch_foldl_mono l [] none hl List.chain'_nil
    (fun p hp => by cases hp) (fun _ => rfl)

/-- Shape of one idle-compression step: the new state has prevT equal to the
frame time, some shift, and the frame appended to the output shifted by that
shift; and when the frame does not precede prevT and the limit is
nonnegative, the shifted output time does not drop below the previous
shifted time. -/
theorem prepStep_out (ilt : Option ℚ) (sa : ℚ) (st : PrepState) (e : Frame) :
    ∃ s a, prepStep ilt sa st e = ⟨e.1, s, a, st.out ++ [(e.1 - s, e.2)]⟩ ∧
      (st.prevT ≤ e.1 → (∀ lim ∈ ilt, 0 ≤ lim) →
        st.prevT - st.shift ≤ e.1 - s) := by
  cases ilt with
  | none =>
    exact ⟨st.shift, st.effectiveStartAt, rfl, fun hpe _ => by linarith⟩
  | some lim =>
    simp only [prepStep]
    split
    · refine ⟨st.shift + (e.1 - st.prevT - lim), _, rfl, fun hpe hlim => ?_⟩
      have h0 : (0:ℚ) ≤ lim := hlim lim (by simp)
      linarith
    · exact ⟨st.shift, st.effectiveStartAt, rfl, fun hpe _ => by linarith⟩

/-- Invariant of the idle-compression fold: from a sorted input, a sorted
output whose last time is the previous shifted time and a prevT dominated by
the input head, the folded output is sorted, given a nonnegative limit. -/
theorem prep_foldl_mono (ilt : Option ℚ) (sa : ℚ)
    (hlim : ∀ lim ∈ ilt, 0 ≤ lim) :
    ∀ (l : List Frame) (st : PrepState),
      List.Chain' (fun a b => a.1 ≤ b.1) l →
      List.Chain' (fun a b => a.1 ≤ b.1) st.out →
      (st.out = [] ∨
        ((∀ x ∈ st.out.getLast?, x.1 ≤ st.prevT - st.shift) ∧
         (∀ h ∈ l.head?, st.prevT ≤ h.1))) →
      List.Chain' (fun a b => a.1 ≤ b.1)
        (l.foldl (prepStep ilt sa) st).out
  | [], _, _, hout, _ => hout
  | e :: rest, st, hl, hout, H => by
      obtain ⟨s, a, hstep, hbound⟩ := prepStep_out ilt sa st e
      rw [List.foldl_cons, hstep]
      refine prep_foldl_mono ilt sa hlim rest
        ⟨e.1, s, a, st.out ++ [(e.1 - s, e.2)]⟩
        (List.chain'_cons'.mp hl).2 ?_ ?_
      · refine chain_concat hout (fun x hx => ?_)
        rcases H with h0 | ⟨hlast, hhead⟩
        · rw [h0] at hx
          simp at hx
        · have hx1 := hlast x hx
          have hpe : st.prevT ≤ e.1 := hhead e (by simp)
          have hb := hbound hpe hlim
          simp only at hx1 ⊢
          linarith
      · right
        refine ⟨fun x hx => ?_, (List.chain'_cons'.mp hl).1⟩
        simp only [List.getLast?_concat, Option.mem_some_iff] at hx
        subst hx
        simp

/-- prepareFrames preserves sortedness, given a nonnegative (or unset) idle
time limit. -/
theorem prepareFrames_mono {l : List Frame} {ilt : Option ℚ} {sa : ℚ}
    (hl : List.Chain' (fun a b => a.1 ≤ b.1) l)
    (hlim : ∀ lim ∈ ilt, 0 ≤ lim) :
    List.Chain' (fun a b => a.1 ≤ b.1) (prepareFrames l ilt sa).1 :=
  prep_foldl_mono ilt sa hlim (batchFrames l) ⟨0, 0, sa, []⟩
    (batchFrames_mono hl) List.chain'_nil (Or.inl rfl)

/-- Folding the batch step over frames all close to the anchor only grows
the anchor payload. -/
theorem batch_foldl_merge (t : ℚ) (out : List Frame) :
    ∀ (l : List Frame) (pp : String),
      (∀ f ∈ l, f.1 - t < maxFrameTime) →
      l.foldl batchStep (out, some (t, pp)) =
        (out, some (t, l.foldl (fun acc f => acc ++ f.2) pp))
  | [], pp, _ => rfl
  | f :: rest, pp, h => by
      simp only [List.foldl_cons, batchStep]
      rw [if_pos (h f (by simp))]
      exact batch_foldl_merge t out rest (pp ++ f.2)
        (fun g hg => h g (by simp [hg]))

/-- A run of frames all within maxFrameTime of the first frame batches to a
single frame keeping the first timestamp and concatenating the payloads in
order. -/
theorem batchFrames_merge_run (t : ℚ) (pp : String) (l : List Frame)
    (h : ∀ f ∈ l, f.1 - t < maxFrameTime) :
    batchFrames ((t, pp) :: l) =
      [(t, l.foldl (fun acc f => acc ++ f.2) pp)] := by
  unfold batchFrames
  rw [List.foldl_cons]
  show batchFlush (l.foldl batchStep ([], some (t, pp))) = _
  rw [batch_foldl_merge t [] l pp h]
  rfl

/-- Two frames at least maxFrameTime apart stay two separate frames. -/
theorem batchFrames_two_apart (t1 t2 : ℚ) (p1 p2 : String)
    (h : ¬(t2 - t1 < maxFrameTime)) :
    batchFrames [(t1, p1), (t2, p2)] = [(t1, p1), (t2, p2)] := by
  unfold batchFrames
  simp only [List.foldl_cons, List.foldl_nil, batchStep]
  rw [if_neg h]
  rfl

/-- The cursor after the feeding loop is the start cursor plus the number of
frames due before the target. -/
theorem advanceFrom_idx (t : ℚ) :
    ∀ (l : List Frame) (i : ℕ) (evt : ℚ) (fed : List String),
      (advanceFrom t l i evt fed).1 =
        i + (l.takeWhile (fun f => decide (f.1 * 1000 < t))).length
  | [], i, evt, fed => by simp [advanceFrom]
  | f :: rest, i, evt, fed => by
      simp only [advanceFrom, List.takeWhile_cons]
      split
      · rename_i h
        rw [advanceFrom_idx t rest (i + 1) (f.1 * 1000) (fed ++ [f.2])]
        simp [h]
        omega
      · rename_i h
        simp [h]

/-- The feeding loop appends exactly the payloads of the frames due before
the target, in order. -/
theorem advanceFrom_fed (t : ℚ) :
    ∀ (l : List Frame) (i : ℕ) (evt : ℚ) (fed : List String),
      (advanceFrom t l i evt fed).2.2 =
        fed ++ (l.takeWhile (fun f => decide (f.1 * 1000 < t))).map Prod.snd
  | [], i, evt, fed => by simp [advanceFrom]
  | f :: rest, i, evt, fed => by
      simp only [advanceFrom, List.takeWhile_cons]
      split
      · rename_i h
        rw [advanceFrom_fed t rest (i + 1) (f.1 * 1000) (fed ++ [f.2])]
        simp [h]
      · rename_i h
        simp [h]

/-- The feeding loop never pushes the elapsed virtual time past the
target. -/
theorem advanceFrom_evt_le (t : ℚ) :
    ∀ (l : List Frame) (i : ℕ) (evt : ℚ) (fed : List String),
      evt ≤ t → (advanceFrom t l i evt fed).2.1 ≤ t
  | [], i, evt, fed, h => h
  | f :: rest, i, evt, fed, h => by
      simp only [advanceFrom]
      split
      · rename_i hf
        exact advanceFrom_evt_le t rest (i + 1) (f.1 * 1000) (fed ++ [f.2])
          (le_of_lt hf)
      · exact h

/-- The feeding loop is the identity when the head frame is not yet due. -/
theorem advanceFrom_not_due (t : ℚ) (l : List Frame) (i : ℕ) (evt : ℚ)
    (fed : List String) (h : ∀ f ∈ l.head?, ¬(f.1 * 1000 < t)) :
    advanceFrom t l i evt fed = (i, evt, fed) := by
  cases l with
  | nil => rfl
  | cons f rest =>
    simp only [advanceFrom]
    rw [if_neg (h f (by simp))]

/-- Dropping as many elements as takeWhile keeps is dropWhile. -/
theorem drop_length_takeWhile {α : Type} (p : α → Bool) :
    ∀ l : List α, l.drop (l.takeWhile p).length = l.dropWhile p
  | [] => rfl
  | a :: l => by
      by_cases h : p a
      · simp [List.takeWhile_cons, List.dropWhile_cons, h,
          drop_length_takeWhile p l]
      · simp [List.takeWhile_cons, List.dropWhile_cons, h]

/-- The head of dropWhile fails the predicate. -/
theorem head_dropWhile_false {α : Type} (p : α → Bool) :
    ∀ l : List α, ∀ f ∈ (l.dropWhile p).head?, p f = false
  | [] => by simp
  | a :: l => by
      by_cases h : p a
      · simpa [List.dropWhile_cons, h] using head_dropWhile_false p l
      · simp [List.dropWhile_cons, h]

/-! ## Claim theorems -/

/-- C1: for every raw event sequence with non-decreasing timestamps, every
nonnegative (or unset) idle time limit, and every startAt, the frame
sequence produced by prepareFrames (batching followed by idle compression)
has non-decreasing timestamps. -/
theorem prepareFrames_timestamps_monotone (events : List Frame)
    (idleTimeLimit : Option ℚ) (startAt : ℚ)
    (hsorted : List.Chain' (fun a b => a.1 ≤ b.1) events)
    (hlim : ∀ lim ∈ idleTimeLimit, 0 ≤ lim) :
    List.Chain' (fun a b => a.1 ≤ b.1)
      (prepareFrames events idleTimeLimit startAt).1 :=
  prepareFrames_mono hsorted hlim

/-- Witness for C1 at a concrete sorted input with idle time limit 5. -/
theorem prepareFrames_timestamps_monotone_witness :
    List.Chain' (fun a b => a.1 ≤ b.1)
      ([((0:ℚ), "a"), (1, "b"), (50, "c")] : List Frame) ∧
    (∀ lim ∈ (some (5:ℚ) : Option ℚ), 0 ≤ lim) ∧
    List.Chain' (fun a b => a.1 ≤ b.1)
      (prepareFrames [(0, "a"), (1, "b"), (50, "c")] (some 5) 0).1 := by
  have hchain : List.Chain' (fun (a b : Frame) => a.1 ≤ b.1)
      [((0:ℚ), "a"), (1, "b"), (50, "c")] := by
    norm_num [List.chain'_cons, List.chain'_singleton]
  have hlim : ∀ lim ∈ (some (5:ℚ) : Option ℚ), 0 ≤ lim := by norm_num
  exact ⟨hchain, hlim,
    prepareFrames_timestamps_monotone [(0, "a"), (1, "b"), (50, "c")]
      (some 5) 0 hchain hlim⟩

/-- C2: on frames at times 0, 1, 50, 51 with idle time limit 5 (and the
default start offset 0), prepareFrames outputs times 0, 1, 6, 7: the gap of
49 between 1 and 50 exceeds the limit by 44 and that shift is subtracted
from every frame at or after the gap. -/
theorem prepareFrames_idle_compression_example :
    prepareFrames [(0, "a"), (1, "b"), (50, "c"), (51, "d")] (some 5) 0 =
      ([(0, "a"), (1, "b"), (6, "c"), (7, "d")], 0) := by
  norm_num [prepareFrames, batchFrames, batchStep, batchFlush, prepStep,
    maxFrameTime]

/-- C3: batching collapses a run of output events within 1/60 s of the batch
anchor into a single frame keeping the first timestamp and concatenating the
payloads in order, and keeps events at least 1/60 s apart separate; in
particular events at 0 and 0.005 merge into one frame at 0 with concatenated
payload, while events at 0 and 0.5 remain two frames. -/
theorem batchFrames_collapses_close_events :
    (∀ (t1 t2 : ℚ) (p1 p2 : String), t2 - t1 < maxFrameTime →
      batchFrames [(t1, p1), (t2, p2)] = [(t1, p1 ++ p2)]) ∧
    (∀ (t1 t2 : ℚ) (p1 p2 : String), ¬(t2 - t1 < maxFrameTime) →
      batchFrames [(t1, p1), (t2, p2)] = [(t1, p1), (t2, p2)]) ∧
    (∀ (t : ℚ) (p : String) (l : List Frame),
      (∀ f ∈ l, f.1 - t < maxFrameTime) →
      batchFrames ((t, p) :: l) =
        [(t, l.foldl (fun acc f => acc ++ f.2) p)]) ∧
    (batchFrames [(0, "a"), (1/200, "b")] = [(0, "ab")]) ∧
    (batchFrames [(0, "a"), (1/2, "b")] = [(0, "a"), (1/2, "b")]) := by
  refine ⟨?_, ?_, ?_, ?_, ?_⟩
  · intro t1 t2 p1 p2 h
    simpa using batchFrames_merge_run t1 p1 [(t2, p2)] (by simpa using h)
  · intro t1 t2 p1 p2 h
    exact batchFrames_two_apart t1 t2 p1 p2 h
  · intro t p l h
    exact batchFrames_merge_run t p l h
  · norm_num [batchFrames, batchStep, batchFlush, maxFrameTime] <;> rfl
  · norm_num [batchFrames, batchStep, batchFlush, maxFrameTime]

/-- Witness for C3: the merge case applied at times 0 and 1/200. -/
theorem batchFrames_collapses_close_events_witness :
    ((1:ℚ)/200 - 0 < maxFrameTime) ∧
    batchFrames [(0, "a"), (1/200, "b")] = [(0, "a" ++ "b")] :=
  ⟨by norm_num [maxFrameTime],
   batchFrames_collapses_close_events.1 0 (1/200) "a" "b"
     (by norm_num [maxFrameTime])⟩

/-- C4: a seek to an in-range target T1 strictly below the current virtual
time feeds the full-reset sequence once, rewinds the cursor to 0 and
re-feeds exactly the frames with timestamp below T1; a seek to a target at
or beyond the current virtual time feeds no reset and only advances from the
current cursor. -/
theorem seek_backward_resets_forward_advances (frames : List Frame)
    (dur T1 : ℚ) (s : SeekState) (h0 : 0 ≤ T1) (h1 : T1 ≤ dur) :
    (T1 * 1000 < s.elapsedVirtualTime →
      (seek frames dur (.time T1) s).fed =
        s.fed ++ [resetSeq] ++
          ((frames.takeWhile (fun f => decide (f.1 * 1000 < T1 * 1000))).map
            Prod.snd) ∧
      (seek frames dur (.time T1) s).nextFrameIndex =
        (frames.takeWhile (fun f => decide (f.1 * 1000 < T1 * 1000))).length) ∧
    (s.elapsedVirtualTime ≤ T1 * 1000 →
      (seek frames dur (.time T1) s).fed =
        s.fed ++ (((frames.drop s.nextFrameIndex).takeWhile
          (fun f => decide (f.1 * 1000 < T1 * 1000))).map Prod.snd) ∧
      (seek frames dur (.time T1) s).nextFrameIndex =
        s.nextFrameIndex + ((frames.drop s.nextFrameIndex).takeWhile
          (fun f => decide (f.1 * 1000 < T1 * 1000))).length) := by
  have htarget : min (max T1 0) dur * 1000 = T1 * 1000 := by
    rw [max_eq_left h0, min_eq_left h1]
  constructor
  · intro hb
    have hb' : min (max T1 0) dur * 1000 < s.elapsedVirtualTime := by
      rw [htarget]; exact hb
    simp only [seek, resolveWhere, if_pos hb', List.drop_zero]
    rw [htarget]
    exact ⟨by rw [advanceFrom_fed], by rw [advanceFrom_idx]; exact Nat.zero_add _⟩
  · intro hf
    have hf' : ¬(min (max T1 0) dur * 1000 < s.elapsedVirtualTime) := by
      rw [htarget]; exact not_lt.mpr hf
    simp only [seek, resolveWhere, if_neg hf']
    rw [htarget]
    exact ⟨by rw [advanceFrom_fed], by rw [advanceFrom_idx]⟩

/-- Witness for C4: a backward seek over two frames feeds the reset sequence
and then only the frame below the target. -/
theorem seek_backward_resets_forward_advances_witness :
    (0:ℚ) ≤ 1 ∧ (1:ℚ) ≤ 1 ∧
    ((1:ℚ) * 1000 < (⟨2, 1500, none, []⟩ : SeekState).elapsedVirtualTime) ∧
    (seek [(0, "x"), (1, "y")] 1 (.time 1) ⟨2, 1500, none, []⟩).fed =
      [resetSeq, "x"] := by
  refine ⟨by norm_num, le_refl 1, by norm_num, ?_⟩
  have h := (seek_backward_resets_forward_advances [(0, "x"), (1, "y")] 1 1
    ⟨2, 1500, none, []⟩ (by norm_num) (le_refl 1)).1 (by norm_num)
  rw [h.1]
  norm_num [List.takeWhile_cons]

/-- C5: for every number X, seeking to X twice in succession equals seeking
once: the second call leaves the whole driver state, including the list of
fed payloads, unchanged (no duplicate feeding and no reset), given a
nonnegative duration. -/
theorem seek_idempotent (frames : List Frame) (dur X : ℚ) (s : SeekState)
    (hdur : 0 ≤ dur) :
    seek frames dur (.time X) (seek frames dur (.time X) s) =
      seek frames dur (.time X) s := by
  set t : ℚ := min (max X 0) dur * 1000 with ht
  have ht0 : 0 ≤ t := by
    apply mul_nonneg
    · exact le_min (le_max_right X 0) hdur
    · norm_num
  set b : ℕ := if t < s.elapsedVirtualTime then 0 else s.nextFrameIndex
    with hbdef
  set p : Frame → Bool := fun f => decide (f.1 * 1000 < t) with hp
  have key : ∀ s1 : SeekState,
      s1.elapsedVirtualTime ≤ t →
      (∀ f ∈ (frames.drop s1.nextFrameIndex).head?, ¬(f.1 * 1000 < t)) →
      s1.pauseElapsedTime = some t →
      seek frames dur (.time X) s1 = s1 := by
    intro s1 h1 h2 h3
    simp only [seek, resolveWhere, ← ht, if_neg (not_lt.mpr h1)]
    rw [advanceFrom_not_due t _ _ _ _ h2]
    cases s1 with
    | mk i evt pet fed => simp only at h3 ⊢; rw [h3]
  have hidx : (seek frames dur (.time X) s).nextFrameIndex =
      b + ((frames.drop b).takeWhile p).length := by
    by_cases hc : t < s.elapsedVirtualTime
    · simp only [seek, resolveWhere, ← ht, if_pos hc, List.drop_zero]
      rw [advanceFrom_idx]
      simp [hbdef, if_pos hc]
    · simp only [seek, resolveWhere, ← ht, if_neg hc]
      rw [advanceFrom_idx]
      simp [hbdef, if_neg hc]
  have hevt : (seek frames dur (.time X) s).elapsedVirtualTime ≤ t := by
    by_cases hc : t < s.elapsedVirtualTime
    · simp only [seek, resolveWhere, ← ht, if_pos hc, List.drop_zero]
      exact advanceFrom_evt_le t _ _ _ _ ht0
    · simp only [seek, resolveWhere, ← ht, if_neg hc]
      exact advanceFrom_evt_le t _ _ _ _ (le_of_not_lt hc)
  have hpet : (seek frames dur (.time X) s).pauseElapsedTime = some t := by
    simp only [seek, resolveWhere, ← ht]
  have hstopped : ∀ f ∈ (frames.drop
      (seek frames dur (.time X) s).nextFrameIndex).head?,
      ¬(f.1 * 1000 < t) := by
    rw [hidx, ← List.drop_drop, drop_length_takeWhile]
    intro f hf
    have hff := head_dropWhile_false p (frames.drop b) f hf
    simp only [hp, decide_eq_false_iff_not] at hff
    exact hff
  exact key (seek frames dur (.time X) s) hevt hstopped hpet

/-- Witness for C5 at a one-frame recording of duration 1. -/
theorem seek_idempotent_witness :
    (0:ℚ) ≤ 1 ∧
    seek [(0, "x")] 1 (.time 5)
        (seek [(0, "x")] 1 (.time 5) ⟨0, 0, none, []⟩) =
      seek [(0, "x")] 1 (.time 5) ⟨0, 0, none, []⟩ :=
  ⟨by norm_num, seek_idempotent [(0, "x")] 1 5 ⟨0, 0, none, []⟩ (by norm_num)⟩

/-- C6: with loop 2, the first onFinish triggers exactly one restart (seek
to 0 then resume) and the second sets the state to finished and dispatches
ended; in general with a numeric loop N the controller restarts while the
incremented play count is below N and otherwise finishes, and with loop true
it always restarts. -/
theorem onFinish_loop_policy :
    (onFinish (.count 2) ⟨0, .playing, [], 0, []⟩ =
      ⟨1, .playing, [0], 1, ["play", "play"]⟩) ∧
    (onFinish (.count 2) ⟨1, .playing, [0], 1, ["play", "play"]⟩ =
      ⟨2, .finished, [0], 1, ["play", "play", "ended"]⟩) ∧
    (∀ (n : ℕ) (s : CoreState), s.playCount + 1 < n →
      onFinish (.count n) s = restart { s with playCount := s.playCount + 1 }) ∧
    (∀ (n : ℕ) (s : CoreState), ¬(s.playCount + 1 < n) →
      onFinish (.count n) s =
        { s with playCount := s.playCount + 1, st := .finished,
                 dispatched := s.dispatched ++ ["ended"] }) ∧
    (∀ s : CoreState, onFinish (.flag true) s =
      restart { s with playCount := s.playCount + 1 }) := by
  refine ⟨rfl, rfl, ?_, ?_, ?_⟩
  · intro n s h
    have hc : loopCondition (.count n) (s.playCount + 1) = true := by
      simp [loopCondition, h]
    simp only [onFinish, hc, if_true]
  · intro n s h
    have hc : loopCondition (.count n) (s.playCount + 1) = false := by
      simp [loopCondition, h]
    simp only [onFinish, hc, Bool.false_eq_true, if_false]
  · intro s
    simp only [onFinish, loopCondition, if_true]

/-- Witness for C6: with loop 3, the first completion restarts. -/
theorem onFinish_loop_policy_witness :
    0 + 1 < 3 ∧
    onFinish (.count 3) ⟨0, .playing, [], 0, []⟩ =
      restart ⟨1, .playing, [], 0, []⟩ :=
  ⟨by decide, onFinish_loop_policy.2.2.1 3 ⟨0, .playing, [], 0, []⟩ (by decide)⟩

/-- C7: three consecutive unclean closes schedule reconnects after 250, 500
and 1000 ms; each unclean close doubles the delay capped at 5000 ms; a
successful open resets the delay to 250 ms; and a clean close (code 1000 or
1005) or a close after an explicit stop invokes onFinish and schedules no
reconnect. -/
theorem websocket_reconnect_backoff :
    (∀ c1 c2 c3 : ℕ,
      c1 ≠ 1000 → c1 ≠ 1005 → c2 ≠ 1000 → c2 ≠ 1005 → c3 ≠ 1000 → c3 ≠ 1005 →
      (wsOnClose c3 (wsOnClose c2
        (wsOnClose c1 wsInit))).scheduledReconnects = [250, 500, 1000]) ∧
    (∀ (s : WsState) (code : ℕ),
      s.stopped = false → code ≠ 1000 → code ≠ 1005 →
      wsOnClose code s =
        { s with waiting := true,
                 scheduledReconnects := s.scheduledReconnects ++ [s.reconnectDelay],
                 reconnectDelay := min (s.reconnectDelay * 2) 5000 } ∧
      (wsOnClose code s).reconnectDelay ≤ 5000) ∧
    (∀ s : WsState, (wsOnOpen s).reconnectDelay = 250) ∧
    (∀ (s : WsState) (code : ℕ), code = 1000 ∨ code = 1005 →
      wsOnClose code s = { s with finishCount := s.finishCount + 1 }) ∧
    (∀ (s : WsState) (code : ℕ),
      wsOnClose code (wsStop s) =
        { s with stopped := true, finishCount := s.finishCount + 1 }) := by
  refine ⟨?_, ?_, fun s => rfl, ?_, ?_⟩
  · intro c1 c2 c3 h1 h1' h2 h2' h3 h3'
    simp [wsOnClose, wsInit, h1, h1', h2, h2', h3, h3']
  · intro s code hs h h'
    have hc : ¬(s.stopped = true ∨ code = 1000 ∨ code = 1005) := by
      simp [hs, h, h']
    constructor
    · simp only [wsOnClose, if_neg hc]
    · simp only [wsOnClose, if_neg hc]
      exact Nat.min_le_right _ _
  · intro s code h
    have hc : s.stopped = true ∨ code = 1000 ∨ code = 1005 := Or.inr h
    simp only [wsOnClose, if_pos hc]
  · intro s code
    have hc : (wsStop s).stopped = true ∨ code = 1000 ∨ code = 1005 :=
      Or.inl rfl
    simp only [wsOnClose, if_pos hc]
    rfl

/-- Witness for C7: three unclean closes with code 4001, 4002, 4003. -/
theorem websocket_reconnect_backoff_witness :
    (4001 ≠ 1000) ∧
    (wsOnClose 4003 (wsOnClose 4002
      (wsOnClose 4001 wsInit))).scheduledReconnects = [250, 500, 1000] :=
  ⟨by decide, websocket_reconnect_backoff.1 4001 4002 4003
    (by decide) (by decide) (by decide) (by decide) (by decide) (by decide)⟩

/-- C8: with a positive bufferTime the queued buffer is selected and every
event with stream-relative time s is fed no earlier than (s + bufferTime)
seconds past the anchor, the sleep being the positive part of the distance
to the target; with bufferTime at most 0 the pass-through buffer is selected
and output payloads are fed immediately. -/
theorem timeShiftBuffer_delay (bufferTime : ℚ) :
    (0 < bufferTime →
      getBuffer bufferTime = .queued ∧
      ∀ (s elapsed : ℚ),
        (s + bufferTime) * 1000 ≤ elapsed + bufferSleep bufferTime s elapsed ∧
        bufferSleep bufferTime s elapsed =
          max 0 ((s + bufferTime) * 1000 - elapsed)) ∧
    (bufferTime ≤ 0 →
      getBuffer bufferTime = .direct ∧
      ∀ (fed : List String) (t : ℚ) (d : String),
        nullBufferPushEvent fed ⟨t, "o", d⟩ = fed ++ [d]) := by
  constructor
  · intro h
    refine ⟨by simp [getBuffer, h], fun s elapsed => ?_⟩
    simp only [bufferSleep]
    split
    · rename_i hgt
      constructor
      · linarith
      · rw [max_eq_right (by linarith)]
    · rename_i hle
      constructor
      · linarith [not_lt.mp hle]
      · rw [max_eq_left (by linarith [not_lt.mp hle])]
  · intro h
    refine ⟨by simp [getBuffer, not_lt.mpr h], fun fed t d => ?_⟩
    simp [nullBufferPushEvent]

/-- Witness for C8: bufferTime 1/5 second delays an event at stream time 0
by at least 200 ms past the anchor. -/
theorem timeShiftBuffer_delay_witness :
    (0:ℚ) < 1/5 ∧
    ((0:ℚ) + 1/5) * 1000 ≤ 0 + bufferSleep (1/5) 0 0 :=
  ⟨by norm_num, (((timeShiftBuffer_delay (1/5)).1 (by norm_num)).2 0 0).1⟩

/-- C9: when at least one row index has accumulated, getChangedLines returns
the mapping from each accumulated row index to its id and segments record
and clears the dirty set, and a second call with no intervening feed returns
nothing. -/
theorem getChangedLines_drains_dirty_rows {α : Type} (s : LineState α)
    (h : s.changedLines ≠ []) :
    (getChangedLines s).1 =
      some (s.changedLines.map (fun i => (i, ⟨i, s.getLine i⟩))) ∧
    (∀ m, (getChangedLines s).1 = some m →
      m.map Prod.fst = s.changedLines) ∧
    (getChangedLines s).2.changedLines = [] ∧
    (getChangedLines (getChangedLines s).2).1 = none := by
  have hlen : 0 < s.changedLines.length := List.length_pos.mpr h
  refine ⟨?_, ?_, ?_, ?_⟩
  · simp only [getChangedLines, if_pos hlen]
  · intro m hm
    simp only [getChangedLines, if_pos hlen, Option.some_inj] at hm
    subst hm
    rw [List.map_map]
    exact List.map_id s.changedLines
  · simp only [getChangedLines, if_pos hlen]
  · simp only [getChangedLines, if_pos hlen]
    simp [getChangedLines]

/-- Witness for C9: draining rows 0 and 1, the second call returns
nothing. -/
theorem getChangedLines_drains_dirty_rows_witness :
    ([0, 1] ≠ ([] : List ℕ)) ∧
    (getChangedLines (getChangedLines
      (⟨[0, 1], fun i => i⟩ : LineState ℕ)).2).1 = none :=
  ⟨by decide,
   (getChangedLines_drains_dirty_rows ⟨[0, 1], fun i => i⟩ (by decide)).2.2.2⟩

/-- C10: get_cursor unconditionally returns a coordinate pair, so once the
terminal model exists getCursor returns a column and row pair and the hidden
fallback is unreachable: from any cache state other than hidden, the result
and the updated cache are never hidden. -/
theorem getCursor_always_pair :
    (∀ b : TermBuf, get_cursor b = some (b.cursorX, b.cursorY - b.baseY)) ∧
    (∀ (s : CursorState) (b : TermBuf),
      s.cursor = .undef → s.vt = some b →
      (getCursor s).1 = .shown b.cursorX (b.cursorY - b.baseY)) ∧
    (∀ s : CursorState, s.cursor ≠ .hidden →
      (getCursor s).1 ≠ .hidden ∧ (getCursor s).2.cursor ≠ .hidden) := by
  refine ⟨fun b => rfl, ?_, ?_⟩
  · intro s b hc hv
    cases s with
    | mk cursor vt =>
      simp only at hc hv
      subst hc
      subst hv
      simp [getCursor, get_cursor]
  · intro s h
    cases s with
    | mk cursor vt =>
      cases cursor with
      | undef =>
        cases vt with
        | none => exact ⟨by simp [getCursor], by simp [getCursor]⟩
        | some b =>
          constructor
          · simp [getCursor, get_cursor]
          · simp [getCursor, get_cursor]
      | hidden => exact absurd rfl h
      | shown c r => exact ⟨by simp [getCursor], by simp [getCursor]⟩

/-- Witness for C10: a fresh cache over a concrete buffer yields a shown
pair. -/
theorem getCursor_always_pair_witness :
    ((⟨.undef, some ⟨3, 5, 2⟩⟩ : CursorState).cursor = .undef) ∧
    (getCursor ⟨.undef, some ⟨3, 5, 2⟩⟩).1 = .shown 3 3 := by
  refine ⟨rfl, ?_⟩
  have h := getCursor_always_pair.2.1 ⟨.undef, some ⟨3, 5, 2⟩⟩ ⟨3, 5, 2⟩ rfl rfl
  simpa using h

end Player
